import Mathlib

/-!
Verification of the rushell line scanner (word splitter) and line parser.

The Rust source (`src/scanner.rs`, `src/line_parser.rs`, `src/token.rs`,
`src/shell.rs`) is embedded shallowly below:

* Strings are represented as `List Char` (Rust iterates `chars()`), but the
  Rust code also uses `String::len` (the UTF-8 *byte* length) as a loop bound
  and byte-range slicing `&s[a..b]`; these are modelled by `strByteLen` and
  `byteSlice`, so the byte/character mixing of the source is preserved.
* A Rust `panic!` (an `unwrap()` of `None`, or slicing at a non-boundary
  byte index) is modelled by the `ScanRes.crash` outcome.
* The two imperative `while` loops of `scan_tokens` and `scan_unquoted_word`
  are modelled with an explicit fuel parameter (`none` = the loop has not
  finished within `fuel` iterations).  The inner quoted-string scans are
  structurally recursive and need no fuel.
-/

namespace Rushell

/-- The character `'` (single quote). -/
def sq : Char := Char.ofNat 39

/-- The character `"` (double quote). -/
def dq : Char := Char.ofNat 34

/-- The character `\` (backslash). -/
def bs : Char := Char.ofNat 92

/-- The backtick character. -/
def btick : Char := Char.ofNat 96

/-- The space character. -/
def spaceC : Char := Char.ofNat 32

/-- The horizontal tab character. -/
def tabC : Char := Char.ofNat 9

/-- The newline character. -/
def newlineC : Char := Char.ofNat 10

/-- The carriage-return character. -/
def crC : Char := Char.ofNat 13

/-- The form-feed character. -/
def ffC : Char := Char.ofNat 12

/-- The character U+00E9 (latin small letter e with acute), whose UTF-8
encoding is two bytes long. -/
def eAcute : Char := Char.ofNat 233

/-- `TokenType` from `src/token.rs`: `Eof` or `String`. -/
inductive TokenType where
  | eof
  | string
  deriving DecidableEq, Repr

/-- `Token` from `src/token.rs`: a type tag and the lexeme text. -/
structure Token where
  type_ : TokenType
  lexeme : List Char
  deriving DecidableEq, Repr

/-- Outcome of running a piece of the scanner:
`ok` = the Rust code returns `Ok`, `err` = it returns `Err(ScannerError)`
with the given message, `crash` = the Rust code panics
(an `unwrap()` of `None` or an out-of-boundary byte slice). -/
inductive ScanRes (α : Type) where
  | ok : α → ScanRes α
  | err : String → ScanRes α
  | crash : ScanRes α
  deriving DecidableEq, Repr

/-- Rust `String::len`: the length of the UTF-8 encoding in bytes. -/
def strByteLen : List Char → Nat
  | [] => 0
  | c :: cs => c.utf8Size + strByteLen cs

/-- Character index of the character starting at byte offset `b` of the UTF-8
encoding of `s`; `none` if `b` is not a character boundary (Rust slicing
panics there).  `b = strByteLen s` is the boundary `some s.length`. -/
def charIdxAtByte : List Char → Nat → Option Nat
  | _, 0 => some 0
  | [], _ + 1 => none
  | c :: cs, b + 1 =>
    if c.utf8Size ≤ b + 1 then (charIdxAtByte cs (b + 1 - c.utf8Size)).map (· + 1)
    else none

/-- Rust `&s[a..b]` on a `String`: the characters between byte offsets `a`
and `b`; `none` models the panic when an offset is out of range or not a
character boundary, or `a > b`. -/
def byteSlice (s : List Char) (a b : Nat) : Option (List Char) :=
  if a ≤ b then
    match charIdxAtByte s a, charIdxAtByte s b with
    | some i, some j => some ((s.drop i).take (j - i))
    | _, _ => none
  else none

/-- Index of the first occurrence of `q` in the list, if any. -/
def findFrom : List Char → Char → Option Nat
  | [], _ => none
  | c :: cs, q => if c = q then some 0 else (findFrom cs q).map (· + 1)

/-- Error message of `scan_single_quoted_string` (backtick, quote, quote). -/
def msgUnterminatedSingle : String := "unexpected EOF while looking for matching \x60\x27\x27"

/-- Error message of `scan_double_quoted_string` (backtick, double quote, quote). -/
def msgUnterminatedDouble : String := "unexpected EOF while looking for matching \x60\x22\x27"

/-- Error message of `scan_unquoted_word` for a trailing backslash. -/
def msgTrailingBackslash : String := "unexpected EOF after \x27\x5c\x27"

/-- `Scanner::scan_single_quoted_string` (`src/scanner.rs:128`): `start` is the
index of the opening quote; search `chars().skip(start+1)` for the closing
quote, then take the *byte* slice `&source[(start+1)..end_at]` as the value
and return `(end_at + 1, value)`. -/
def scan_single_quoted_string (source : List Char) (start : Nat) : ScanRes (Nat × List Char) :=
  match findFrom (source.drop (start + 1)) sq with
  | none => .err msgUnterminatedSingle
  | some i =>
    match byteSlice source (start + 1) (start + i + 1) with
    | none => .crash
    | some value => .ok (start + i + 1 + 1, value)

/-- Loop body of `Scanner::scan_double_quoted_string` (`src/scanner.rs:79`):
walk the characters after the opening quote; on `\` consume one more
character `c2` and push `c2` if it is one of `$`, backtick, `"`, `\`, push
backslash-`n` if `c2 = n`, and push only the backslash otherwise (the
consumed `c2` is dropped by the Rust code); stop at an unescaped `"`,
returning the enumerate index `i` of the closing quote and the value.
`none` = no closing quote found (a backslash as last character pushes to the
value but the loop then ends with `end_at` still `None`). -/
def scanDQLoop : List Char → Nat → List Char → Option (Nat × List Char)
  | [], _, _ => none
  | c :: rest, i, acc =>
    if c = dq then some (i, acc)
    else if c = bs then
      match rest with
      | [] => none
      | c2 :: rest2 =>
        if c2 = '$' ∨ c2 = btick ∨ c2 = dq ∨ c2 = bs then scanDQLoop rest2 (i + 2) (acc ++ [c2])
        else if c2 = 'n' then scanDQLoop rest2 (i + 2) (acc ++ [bs, 'n'])
        else scanDQLoop rest2 (i + 2) (acc ++ [bs])
    else scanDQLoop rest (i + 1) (acc ++ [c])

/-- `Scanner::scan_double_quoted_string` (`src/scanner.rs:73`): `end_at` is
`start + i + 1` and the function returns `(end_at + 1, value)`, or the
unterminated-double-quote error if no closing quote was found. -/
def scan_double_quoted_string (source : List Char) (start : Nat) : ScanRes (Nat × List Char) :=
  match scanDQLoop (source.drop (start + 1)) 0 [] with
  | none => .err msgUnterminatedDouble
  | some (i, value) => .ok (start + i + 1 + 1, value)

/-- `Scanner::is_metacharacter` (`src/scanner.rs:150`):
membership in the string `" \t\n|&;()<>"`. -/
def is_metacharacter (c : Char) : Bool :=
  c == spaceC || c == tabC || c == newlineC || c == '|' || c == '&' ||
    c == ';' || c == '(' || c == ')' || c == '<' || c == '>'

/-- Loop of `Scanner::scan_unquoted_word` (`src/scanner.rs:154`), with fuel.
The `while` condition is `current < source.len()` (the BYTE length) and
`!is_metacharacter(chars().nth(current).unwrap())` — the `unwrap` panics
(`crash`) when the character index `current` is past the end although the
byte index is not.  On `\` the next character is taken literally (error if
there is none); on a quote the corresponding quoted scan is run and its value
appended; otherwise the character itself is appended. -/
def scanUWLoop (source : List Char) : Nat → Nat → List Char → Option (ScanRes (Nat × List Char))
  | 0, _, _ => none
  | fuel + 1, current, value =>
    if current < strByteLen source then
      match source.get? current with
      | none => some .crash
      | some c =>
        if is_metacharacter c then some (.ok (current, value))
        else if c = bs then
          if current + 1 < strByteLen source then
            match source.get? (current + 1) with
            | none => some .crash
            | some c2 => scanUWLoop source fuel (current + 2) (value ++ [c2])
          else some (.err msgTrailingBackslash)
        else if c = sq then
          match scan_single_quoted_string source current with
          | .ok r => scanUWLoop source fuel r.1 (value ++ r.2)
          | .err m => some (.err m)
          | .crash => some .crash
        else if c = dq then
          match scan_double_quoted_string source current with
          | .ok r => scanUWLoop source fuel r.1 (value ++ r.2)
          | .err m => some (.err m)
          | .crash => some .crash
        else scanUWLoop source fuel (current + 1) (value ++ [c])
    else some (.ok (current, value))

/-- `Scanner::scan_unquoted_word` (`src/scanner.rs:154`). -/
def scan_unquoted_word (source : List Char) (start : Nat) (fuel : Nat) :
    Option (ScanRes (Nat × List Char)) :=
  scanUWLoop source fuel start []

/-- The `Arm` enum local to `Scanner::scan_tokens` (`src/scanner.rs:26`). -/
inductive Arm where
  | singleQuoted
  | doubleQuoted
  deriving DecidableEq, Repr

/-- A `String`-type token, as built by `Token::new(TokenType::String, text)`. -/
def mkWord (l : List Char) : Token := ⟨.string, l⟩

/-- The `Eof` token pushed at the end of `scan_tokens`. -/
def eofToken : Token := ⟨.eof, []⟩

/-- The `if let Some(mut token) = tokens.pop()` merge of `scan_tokens`
(`src/scanner.rs:56`): append `v` to the lexeme of the last token, if any. -/
def mergeLast : List Token → List Char → List Token
  | [], _ => []
  | [t], v => [⟨t.type_, t.lexeme ++ v⟩]
  | t :: ts, v => t :: mergeLast ts v

/-- The `while` loop of `Scanner::scan_tokens` (`src/scanner.rs:36`), with
fuel.  The loop bound is the BYTE length of the source while `chars().nth`
indexes by character (`crash` when the `unwrap` hits `None`).  A space or tab
does nothing (in particular `previousArm` is NOT reset).  A quote scans a
quoted string and pushes a fresh token, recording the arm.  Anything else
scans an unquoted word starting at the same position; if `previousArm` is
set, the word is appended to the last token, otherwise pushed as a new token.
After the loop the `Eof` token is appended. -/
def scanLoop (source : List Char) : Nat → Nat → Option Arm → List Token →
    Option (ScanRes (List Token))
  | 0, _, _, _ => none
  | fuel + 1, current, previousArm, tokens =>
    if current < strByteLen source then
      match source.get? current with
      | none => some .crash
      | some c =>
        if c = spaceC ∨ c = tabC then scanLoop source fuel (current + 1) previousArm tokens
        else if c = sq then
          match scan_single_quoted_string source current with
          | .ok r => scanLoop source fuel r.1 (some .singleQuoted) (tokens ++ [mkWord r.2])
          | .err m => some (.err m)
          | .crash => some .crash
        else if c = dq then
          match scan_double_quoted_string source current with
          | .ok r => scanLoop source fuel r.1 (some .doubleQuoted) (tokens ++ [mkWord r.2])
          | .err m => some (.err m)
          | .crash => some .crash
        else
          match scan_unquoted_word source current (fuel + 1) with
          | none => none
          | some (.ok r) =>
            match previousArm with
            | some _ => scanLoop source fuel r.1 none (mergeLast tokens r.2)
            | none => scanLoop source fuel r.1 none (tokens ++ [mkWord r.2])
          | some (.err m) => some (.err m)
          | some .crash => some .crash
    else some (.ok (tokens ++ [eofToken]))

/-- `Scanner::scan_tokens` (`src/scanner.rs:25`): run the loop from position
0 with no previous arm and no tokens. -/
def scan_tokens (source : List Char) (fuel : Nat) : Option (ScanRes (List Token)) :=
  scanLoop source fuel 0 none []

/-- Rust `char::is_ascii_whitespace`: space, tab, newline, form feed,
carriage return. -/
def isAsciiWhitespace (c : Char) : Bool :=
  c == spaceC || c == tabC || c == newlineC || c == ffC || c == crC

/-- The loop of `LineParser::parse` (`src/line_parser.rs:3`): a
non-whitespace character is pushed onto the current word; a whitespace
character emits the current word if it is nonempty; at the end the current
word is emitted if nonempty. -/
def parseLoop : List Char → List Char → List (List Char)
  | [], current => if current = [] then [] else [current]
  | c :: rest, current =>
    if isAsciiWhitespace c then
      (if current = [] then [] else [current]) ++ parseLoop rest []
    else parseLoop rest (current ++ [c])

/-- `LineParser::parse` (`src/line_parser.rs:3`): this — and not the
Scanner — is what `Shell::repl` (`src/shell.rs:55`) uses to build the
argument vector for dispatch. -/
def LineParser.parse (line : List Char) : List (List Char) := parseLoop line []

/-- The texts of the `String`-type (Word) tokens, in order — what the spec
says the read-eval loop extracts from a successful scan. -/
def wordTexts (ts : List Token) : List (List Char) :=
  ts.filterMap fun t => match t.type_ with | .string => some t.lexeme | .eof => none

/-- The Word texts of a successful scan of `s` (with the given fuel). -/
def scanWords (s : List Char) (fuel : Nat) : Option (List (List Char)) :=
  match scan_tokens s fuel with
  | some (.ok ts) => some (wordTexts ts)
  | _ => none

/-- Blank (field-separating) characters of the scanner: space or tab. -/
def isBlank (c : Char) : Bool := c == spaceC || c == tabC

/-- A plain word character: single-byte, not a scanner metacharacter, not a
quote, backslash, carriage return or form feed.  On lines made of such
characters and blanks, quoting and escape processing never trigger. -/
def plainChar (c : Char) : Bool :=
  c.utf8Size == 1 && !is_metacharacter c && !(c == sq) && !(c == dq) &&
    !(c == bs) && !(c == crC) && !(c == ffC)

/-- A character of a plain line: blank or plain. -/
def okChar (c : Char) : Bool := isBlank c || plainChar c

/-! ## Helper lemmas -/

theorem get?_append_cons (pre : List Char) (c : Char) (t : List Char) :
    (pre ++ c :: t).get? pre.length = some c := by
  induction pre with
  | nil => rfl
  | cons a pre ih => simpa using ih

theorem strByteLen_eq_length (s : List Char) (hs : ∀ c ∈ s, c.utf8Size = 1) :
    strByteLen s = s.length := by
  induction s with
  | nil => rfl
  | cons c cs ih =>
    simp only [strByteLen, List.length_cons, hs c (List.mem_cons_self c cs)]
    rw [ih fun c hc => hs c (List.mem_cons_of_mem _ hc)]
    omega

theorem plainChar_spec (c : Char) (h : plainChar c = true) :
    c.utf8Size = 1 ∧ is_metacharacter c = false ∧ c ≠ sq ∧ c ≠ dq ∧ c ≠ bs ∧
      c ≠ crC ∧ c ≠ ffC := by
  simp only [plainChar, Bool.and_eq_true, Bool.not_eq_true', beq_iff_eq, beq_eq_false_iff_ne,
    ne_eq] at h
  exact ⟨h.1.1.1.1.1.1, h.1.1.1.1.1.2, h.1.1.1.1.2, h.1.1.1.2, h.1.1.2, h.1.2, h.2⟩

theorem not_meta_spec (c : Char) (h : is_metacharacter c = false) :
    c ≠ spaceC ∧ c ≠ tabC ∧ c ≠ newlineC := by
  simp only [is_metacharacter, Bool.or_eq_false_iff, beq_eq_false_iff_ne, ne_eq] at h
  exact ⟨h.1.1.1.1.1.1.1.1.1, h.1.1.1.1.1.1.1.1.2, h.1.1.1.1.1.1.1.2⟩

theorem isBlank_spec (c : Char) (h : isBlank c = true) : c = spaceC ∨ c = tabC := by
  simp only [isBlank, Bool.or_eq_true, beq_iff_eq] at h
  exact h

theorem isBlank_meta (c : Char) (h : isBlank c = true) : is_metacharacter c = true := by
  rcases isBlank_spec c h with rfl | rfl <;> decide

theorem isBlank_ws (c : Char) (h : isBlank c = true) : isAsciiWhitespace c = true := by
  rcases isBlank_spec c h with rfl | rfl <;> decide

theorem isBlank_utf8 (c : Char) (h : isBlank c = true) : c.utf8Size = 1 := by
  rcases isBlank_spec c h with rfl | rfl <;> decide

theorem plain_not_ws (c : Char) (h : plainChar c = true) : isAsciiWhitespace c = false := by
  obtain ⟨_, hm, _, _, _, hcr, hff⟩ := plainChar_spec c h
  obtain ⟨hsp, htb, hnl⟩ := not_meta_spec c hm
  simp [isAsciiWhitespace, hsp, htb, hnl, hcr, hff]

theorem okChar_cases (c : Char) (h : okChar c = true) :
    isBlank c = true ∨ plainChar c = true := by
  simpa only [okChar, Bool.or_eq_true] using h

theorem okChar_utf8 (c : Char) (h : okChar c = true) : c.utf8Size = 1 := by
  rcases okChar_cases c h with h | h
  · exact isBlank_utf8 c h
  · exact (plainChar_spec c h).1

theorem charIdxAtByte_ascii (s : List Char) (hs : ∀ c ∈ s, c.utf8Size = 1) :
    ∀ b, b ≤ s.length → charIdxAtByte s b = some b := by
  induction s with
  | nil =>
    intro b hb
    have : b = 0 := by simp at hb; omega
    subst this
    rfl
  | cons c cs ih =>
    intro b hb
    cases b with
    | zero => rfl
    | succ b =>
      have hc : c.utf8Size = 1 := hs c (List.mem_cons_self c cs)
      simp only [charIdxAtByte, hc]
      rw [if_pos (by omega)]
      have : b + 1 - 1 = b := by omega
      rw [this, ih (fun c hc => hs c (List.mem_cons_of_mem _ hc)) b (by simpa using hb)]
      rfl

theorem byteSlice_ascii (s : List Char) (hs : ∀ c ∈ s, c.utf8Size = 1) (a b : Nat)
    (hab : a ≤ b) (hb : b ≤ s.length) :
    byteSlice s a b = some ((s.drop a).take (b - a)) := by
  rw [byteSlice, if_pos hab, charIdxAtByte_ascii s hs a (le_trans hab hb),
    charIdxAtByte_ascii s hs b hb]

theorem findFrom_eq_none (q : Char) : ∀ (l : List Char), q ∉ l → findFrom l q = none := by
  intro l
  induction l with
  | nil => intro _; rfl
  | cons c cs ih =>
    intro h
    have hc : ¬(c = q) := fun hcq => h (by simp [hcq])
    simp only [findFrom, if_neg hc, ih fun hm => h (List.mem_cons_of_mem _ hm)]
    rfl

theorem findFrom_append (l t : List Char) (q : Char) (h : q ∉ l) :
    findFrom (l ++ q :: t) q = some l.length := by
  induction l with
  | nil => simp [findFrom]
  | cons c cs ih =>
    have hc : ¬(c = q) := fun hcq => h (by simp [hcq])
    have hrest := ih fun hm => h (List.mem_cons_of_mem _ hm)
    simp [findFrom, if_neg hc, hrest]

theorem scanDQLoop_none :
    ∀ (n : Nat) (l : List Char), l.length ≤ n → dq ∉ l →
      ∀ i acc, scanDQLoop l i acc = none := by
  intro n
  induction n with
  | zero =>
    intro l hl _ i acc
    have : l = [] := List.eq_nil_of_length_eq_zero (by omega)
    subst this
    rfl
  | succ n ih =>
    intro l hl h i acc
    cases l with
    | nil => rfl
    | cons c rest =>
      have hc : ¬(c = dq) := fun hcq => h (by simp [hcq])
      cases rest with
      | nil =>
        by_cases hbs : c = bs
        · subst hbs
          simp [scanDQLoop, hc]
        · simp [scanDQLoop, hc, hbs]
      | cons c2 rest2 =>
        by_cases hbs : c = bs
        · have h2 : dq ∉ rest2 := fun hm => h (by simp [hm])
          have hc2 : ¬(c2 = dq) := fun hcq => h (by simp [hcq])
          simp only [scanDQLoop, if_neg hc, if_pos hbs]
          have hlen : rest2.length ≤ n := by simp at hl; omega
          by_cases hesc : c2 = '$' ∨ c2 = btick ∨ c2 = dq ∨ c2 = bs
          · rw [if_pos hesc]; exact ih rest2 hlen h2 _ _
          · rw [if_neg hesc]
            by_cases hn : c2 = 'n'
            · rw [if_pos hn]; exact ih rest2 hlen h2 _ _
            · rw [if_neg hn]; exact ih rest2 hlen h2 _ _
        · have h2 : dq ∉ c2 :: rest2 := fun hm => h (by simp at hm ⊢; tauto)
          simp only [scanDQLoop, if_neg hc, if_neg hbs]
          exact ih (c2 :: rest2) (by simp at hl ⊢; omega) h2 _ _

theorem scan_single_ok (content : List Char) (h1 : sq ∉ content)
    (h2 : ∀ c ∈ content, c.utf8Size = 1) :
    scan_single_quoted_string (sq :: (content ++ [sq])) 0 =
      .ok (content.length + 2, content) := by
  have hfind : findFrom (content ++ [sq]) sq = some content.length :=
    findFrom_append content [] sq h1
  have hascii : ∀ c ∈ sq :: (content ++ [sq]), c.utf8Size = 1 := by
    intro c hc
    simp only [List.mem_cons, List.mem_append] at hc
    rcases hc with rfl | hc | hc
    · decide
    · exact h2 c hc
    · simp at hc
      subst hc
      decide
  have hslice : byteSlice (sq :: (content ++ [sq])) 1 (content.length + 1) = some content := by
    rw [byteSlice_ascii _ hascii 1 (content.length + 1) (by omega) (by simp)]
    simp
  simp [scan_single_quoted_string, hfind, hslice]

theorem mergeLast_inv (v : List Char) :
    ∀ (tokens : List Token), (∀ t ∈ tokens, t.type_ = TokenType.string) →
      ∀ t ∈ mergeLast tokens v, t.type_ = TokenType.string := by
  intro tokens
  induction tokens with
  | nil => intro _ t ht; simp [mergeLast] at ht
  | cons a ts ih =>
    intro hinv t ht
    cases ts with
    | nil =>
      simp only [mergeLast, List.mem_singleton] at ht
      subst ht
      exact hinv a (by simp)
    | cons b ts' =>
      rw [show mergeLast (a :: b :: ts') v = a :: mergeLast (b :: ts') v from rfl] at ht
      rcases List.mem_cons.1 ht with rfl | ht
      · exact hinv t (by simp)
      · exact ih (fun u hu => hinv u (List.mem_cons_of_mem _ hu)) t ht

theorem wordTexts_words : ∀ ws : List (List Char), wordTexts (ws.map mkWord ++ [eofToken]) = ws := by
  intro ws
  induction ws with
  | nil => rfl
  | cons w ws ih => simpa [wordTexts, mkWord] using ih

theorem scanUW_plain :
    ∀ (w : List Char), (∀ c ∈ w, plainChar c = true) →
    ∀ (pre rest : List Char),
      (∀ c ∈ pre ++ w ++ rest, okChar c = true) →
      (rest = [] ∨ ∃ b rest2, rest = b :: rest2 ∧ isBlank b = true) →
      ∀ (fuel : Nat) (acc : List Char), w.length < fuel →
        scanUWLoop (pre ++ w ++ rest) fuel pre.length acc =
          some (.ok (pre.length + w.length, acc ++ w)) := by
  intro w
  induction w with
  | nil =>
    intro _ pre rest hall hrest fuel acc hfuel
    cases fuel with
    | zero => omega
    | succ f =>
      have hlen : strByteLen (pre ++ [] ++ rest) = pre.length + rest.length := by
        rw [strByteLen_eq_length _ (fun c hc => okChar_utf8 c (hall c hc))]
        simp
      rcases hrest with rfl | ⟨b, rest2, rfl, hb⟩
      · have hcond : ¬(pre.length < strByteLen (pre ++ [] ++ [])) := by
          rw [hlen, List.length_nil]
          omega
        simp only [scanUWLoop]
        rw [if_neg hcond]
        simp
      · have hcond : pre.length < strByteLen (pre ++ [] ++ b :: rest2) := by
          rw [hlen, List.length_cons]
          omega
        have hget : (pre ++ [] ++ b :: rest2).get? pre.length = some b := by
          simpa using get?_append_cons pre b rest2
        simp only [scanUWLoop]
        rw [if_pos hcond]
        simp only [hget]
        rw [if_pos (isBlank_meta b hb)]
        simp
  | cons c w ih =>
    intro hw pre rest hall hrest fuel acc hfuel
    cases fuel with
    | zero => simp at hfuel
    | succ f =>
      have hplain : plainChar c = true := hw c (by simp)
      obtain ⟨hutf, hmeta, hsq, hdq, hbs, _, _⟩ := plainChar_spec c hplain
      have hassoc : pre ++ (c :: w) ++ rest = (pre ++ [c]) ++ w ++ rest := by simp
      have hlen : pre.length < strByteLen (pre ++ (c :: w) ++ rest) := by
        rw [strByteLen_eq_length _ (fun x hx => okChar_utf8 x (hall x hx))]
        simp
      have hget : (pre ++ (c :: w) ++ rest).get? pre.length = some c := by
        have h : pre ++ (c :: w) ++ rest = pre ++ c :: (w ++ rest) := by simp
        rw [h, get?_append_cons]
      simp only [scanUWLoop, hget]
      rw [if_pos hlen]
      simp only [hmeta, Bool.false_eq_true, if_false, if_neg hbs, if_neg hsq, if_neg hdq]
      rw [hassoc] at hall ⊢
      have := ih (fun x hx => hw x (by simp [hx])) (pre ++ [c]) rest hall hrest f
        (acc ++ [c]) (by simp at hfuel ⊢; omega)
      simp only [List.length_append, List.length_singleton, List.length_nil, List.length_cons,
        Nat.zero_add, List.append_assoc, List.singleton_append] at this ⊢
      rw [show pre.length + (w.length + 1) = pre.length + 1 + w.length from by omega]
      exact this

theorem scanUW_trailing :
    ∀ (w : List Char), (∀ c ∈ w, plainChar c = true) →
    ∀ (pre : List Char), (∀ c ∈ pre, c.utf8Size = 1) →
      ∀ (fuel : Nat) (acc : List Char), w.length < fuel →
        scanUWLoop (pre ++ w ++ [bs]) fuel pre.length acc =
          some (.err msgTrailingBackslash) := by
  intro w
  induction w with
  | nil =>
    intro _ pre hpre fuel acc hfuel
    cases fuel with
    | zero => omega
    | succ f =>
      have hlen : strByteLen (pre ++ [] ++ [bs]) = pre.length + 1 := by
        rw [strByteLen_eq_length]
        · simp
        · intro c hc
          simp at hc
          rcases hc with hc | rfl
          · exact hpre c hc
          · decide
      have hget : (pre ++ [] ++ [bs]).get? pre.length = some bs := by
        simpa using get?_append_cons pre bs []
      have hcond : pre.length < strByteLen (pre ++ [] ++ [bs]) := by
        rw [hlen]
        omega
      have hcond2 : ¬(pre.length + 1 < strByteLen (pre ++ [] ++ [bs])) := by
        rw [hlen]
        omega
      simp only [scanUWLoop]
      rw [if_pos hcond]
      simp only [hget]
      rw [if_neg (show ¬(is_metacharacter bs = true) from by decide), if_true,
        if_neg hcond2]
  | cons c w ih =>
    intro hw pre hpre fuel acc hfuel
    cases fuel with
    | zero => simp at hfuel
    | succ f =>
      have hplain : plainChar c = true := hw c (by simp)
      obtain ⟨hutf, hmeta, hsq, hdq, hbs, _, _⟩ := plainChar_spec c hplain
      have hassoc : pre ++ (c :: w) ++ [bs] = (pre ++ [c]) ++ w ++ [bs] := by simp
      have hlen : pre.length < strByteLen (pre ++ (c :: w) ++ [bs]) := by
        rw [strByteLen_eq_length]
        · simp
        · intro x hx
          rcases List.mem_append.1 hx with h1 | h1
          · rcases List.mem_append.1 h1 with h2 | h2
            · exact hpre x h2
            · rcases List.mem_cons.1 h2 with rfl | h3
              · exact hutf
              · exact (plainChar_spec x (hw x (by simp [h3]))).1
          · have hxbs := List.mem_singleton.1 h1
            subst hxbs
            decide
      have hget : (pre ++ (c :: w) ++ [bs]).get? pre.length = some c := by
        have h : pre ++ (c :: w) ++ [bs] = pre ++ c :: (w ++ [bs]) := by simp
        rw [h, get?_append_cons]
      simp only [scanUWLoop, hget]
      rw [if_pos hlen]
      simp only [hmeta, Bool.false_eq_true, if_false, if_neg hbs, if_neg hsq, if_neg hdq]
      rw [hassoc]
      have hpre' : ∀ x ∈ pre ++ [c], x.utf8Size = 1 := by
        intro x hx
        simp at hx
        rcases hx with hx | rfl
        · exact hpre x hx
        · exact hutf
      have := ih (fun x hx => hw x (by simp [hx])) (pre ++ [c]) hpre' f
        (acc ++ [c]) (by simp at hfuel ⊢; omega)
      simpa using this

theorem scanLoop_pipe : ∀ (fuel : Nat) (tokens : List Token),
    scanLoop ['a', '|', 'b'] fuel 1 none tokens = none := by
  intro fuel
  induction fuel with
  | zero => intro tokens; rfl
  | succ f ih =>
    intro tokens
    have h1 : scan_unquoted_word ['a', '|', 'b'] 1 (f + 1) = some (.ok (1, [])) := by
      simp only [scan_unquoted_word, scanUWLoop]
      rw [if_pos (by decide : (1 : Nat) < strByteLen ['a', '|', 'b'])]
      rfl
    simp only [scanLoop]
    rw [if_pos (by decide : (1 : Nat) < strByteLen ['a', '|', 'b'])]
    simp only [show (['a', '|', 'b'].get? 1) = some '|' from rfl]
    rw [if_neg (by decide), if_neg (by decide), if_neg (by decide)]
    simp only [h1]
    exact ih _

theorem scanLoop_ok_shape (source : List Char) :
    ∀ (fuel current : Nat) (prevArm : Option Arm) (tokens ts : List Token),
      (∀ t ∈ tokens, t.type_ = TokenType.string) →
      scanLoop source fuel current prevArm tokens = some (.ok ts) →
      ∃ ws, ts = ws ++ [eofToken] ∧ ∀ t ∈ ws, t.type_ = TokenType.string := by
  intro fuel
  induction fuel with
  | zero =>
    intro current prevArm tokens ts hinv h
    simp [scanLoop] at h
  | succ f ih =>
    intro current prevArm tokens ts hinv h
    simp only [scanLoop, List.get?_eq_getElem?] at h
    by_cases hlt : current < strByteLen source
    · rw [if_pos hlt] at h
      cases hg : source[current]? with
      | none => simp [hg] at h
      | some c =>
        simp only [hg] at h
        by_cases hws : c = spaceC ∨ c = tabC
        · rw [if_pos hws] at h
          exact ih _ _ _ _ hinv h
        · rw [if_neg hws] at h
          by_cases hsq : c = sq
          · rw [if_pos hsq] at h
            cases hscan : scan_single_quoted_string source current with
            | ok r =>
              simp only [hscan] at h
              refine ih _ _ _ _ ?_ h
              intro t ht
              rcases List.mem_append.1 ht with h1 | h1
              · exact hinv t h1
              · simp only [List.mem_singleton] at h1
                subst h1
                rfl
            | err m => simp [hscan] at h
            | crash => simp [hscan] at h
          · rw [if_neg hsq] at h
            by_cases hdq : c = dq
            · rw [if_pos hdq] at h
              cases hscan : scan_double_quoted_string source current with
              | ok r =>
                simp only [hscan] at h
                refine ih _ _ _ _ ?_ h
                intro t ht
                rcases List.mem_append.1 ht with h1 | h1
                · exact hinv t h1
                · simp only [List.mem_singleton] at h1
                  subst h1
                  rfl
              | err m => simp [hscan] at h
              | crash => simp [hscan] at h
            · rw [if_neg hdq] at h
              cases hscan : scan_unquoted_word source current (f + 1) with
              | none => simp [hscan] at h
              | some res =>
                simp only [hscan] at h
                cases res with
                | ok r =>
                  cases prevArm with
                  | some arm =>
                    refine ih _ _ _ _ ?_ h
                    exact mergeLast_inv r.2 tokens hinv
                  | none =>
                    refine ih _ _ _ _ ?_ h
                    intro t ht
                    rcases List.mem_append.1 ht with h1 | h1
                    · exact hinv t h1
                    · simp only [List.mem_singleton] at h1
                      subst h1
                      rfl
                | err m => simp at h
                | crash => simp at h
    · rw [if_neg hlt] at h
      simp only [Option.some.injEq] at h
      have := h
      cases h
      exact ⟨tokens, by simp_all⟩

theorem takeWhile_all (p : Char → Bool) :
    ∀ l : List Char, ∀ c ∈ l.takeWhile p, p c = true := by
  intro l
  induction l with
  | nil => simp
  | cons a t ih =>
    by_cases h : p a
    · rw [List.takeWhile_cons_of_pos h]
      intro c hc
      rcases List.mem_cons.1 hc with rfl | hc
      · exact h
      · exact ih c hc
    · rw [List.takeWhile_cons_of_neg h]
      simp

theorem dropWhile_head (p : Char → Bool) :
    ∀ l : List Char, l.dropWhile p = [] ∨
      ∃ b t, l.dropWhile p = b :: t ∧ p b = false := by
  intro l
  induction l with
  | nil => left; rfl
  | cons a t ih =>
    by_cases h : p a
    · rw [List.dropWhile_cons_of_pos h]
      exact ih
    · rw [List.dropWhile_cons_of_neg h]
      right
      exact ⟨a, t, rfl, by simpa using h⟩

theorem parseLoop_word :
    ∀ (w : List Char), (∀ c ∈ w, isAsciiWhitespace c = false) →
    ∀ (cur rest2 : List Char),
      (rest2 = [] ∨ ∃ b r2, rest2 = b :: r2 ∧ isAsciiWhitespace b = true) →
      cur ++ w ≠ [] →
      parseLoop (w ++ rest2) cur = (cur ++ w) :: parseLoop rest2 [] := by
  intro w
  induction w with
  | nil =>
    intro _ cur rest2 hrest hne
    simp only [List.append_nil] at hne
    rcases hrest with rfl | ⟨b, r2, rfl, hb⟩
    · simp [parseLoop, hne]
    · simp [parseLoop, hb, hne]
  | cons c w ih =>
    intro hw cur rest2 hrest hne
    have hc : isAsciiWhitespace c = false := hw c (by simp)
    simp only [List.cons_append, parseLoop, hc, Bool.false_eq_true, if_false]
    have := ih (fun x hx => hw x (by simp [hx])) (cur ++ [c]) rest2 hrest (by simp)
    simpa using this

theorem scanLoop_plain (source : List Char) (hall : ∀ c ∈ source, okChar c = true) :
    ∀ (fuel : Nat) (pre rest : List Char) (tokens : List Token),
      source = pre ++ rest → rest.length < fuel →
      scanLoop source fuel pre.length none tokens =
        some (.ok (tokens ++ (parseLoop rest []).map mkWord ++ [eofToken])) := by
  have hascii : ∀ c ∈ source, c.utf8Size = 1 := fun c hc => okChar_utf8 c (hall c hc)
  have hlen : strByteLen source = source.length := strByteLen_eq_length source hascii
  intro fuel
  induction fuel with
  | zero =>
    intro pre rest tokens hsrc hf
    omega
  | succ f ih =>
    intro pre rest tokens hsrc hf
    cases rest with
    | nil =>
      have hcond : ¬(pre.length < strByteLen source) := by
        rw [hlen, hsrc]
        simp
      simp only [scanLoop]
      rw [if_neg hcond]
      simp [parseLoop]
    | cons c rest' =>
      have hcond : pre.length < strByteLen source := by
        rw [hlen, hsrc]
        simp
      have hget : source.get? pre.length = some c := by
        rw [hsrc]
        exact get?_append_cons pre c rest'
      have hcmem : c ∈ source := by
        rw [hsrc]
        simp
      simp only [scanLoop]
      rw [if_pos hcond]
      simp only [hget]
      rcases okChar_cases c (hall c hcmem) with hblank | hplain
      · rw [if_pos (isBlank_spec c hblank)]
        have hrec := ih (pre ++ [c]) rest' tokens (by simp [hsrc]) (by simp at hf ⊢; omega)
        rw [show (pre ++ [c]).length = pre.length + 1 from by simp] at hrec
        rw [hrec]
        have hpl : parseLoop (c :: rest') [] = parseLoop rest' [] := by
          simp [parseLoop, isBlank_ws c hblank]
        rw [hpl]
      · obtain ⟨hutf, hmeta, hsq, hdq, hbs, hcr, hff⟩ := plainChar_spec c hplain
        have hnblank : ¬(c = spaceC ∨ c = tabC) := by
          obtain ⟨h1, h2, _⟩ := not_meta_spec c hmeta
          rintro (rfl | rfl)
          · exact h1 rfl
          · exact h2 rfl
        rw [if_neg hnblank, if_neg hsq, if_neg hdq]
        obtain ⟨w, rest2, hW, hR⟩ :
            ∃ w rest2, w = (c :: rest').takeWhile plainChar ∧
              rest2 = (c :: rest').dropWhile plainChar := ⟨_, _, rfl, rfl⟩
        have hsplit : w ++ rest2 = c :: rest' := by
          rw [hW, hR]
          exact List.takeWhile_append_dropWhile plainChar (c :: rest')
        have hwplain : ∀ x ∈ w, plainChar x = true := fun x hx =>
          takeWhile_all plainChar (c :: rest') x (hW ▸ hx)
        have hwcons : w = c :: rest'.takeWhile plainChar := by
          rw [hW, List.takeWhile_cons_of_pos hplain]
        have hrest2head : rest2 = [] ∨ ∃ b r2, rest2 = b :: r2 ∧ isBlank b = true := by
          rcases dropWhile_head plainChar (c :: rest') with h0 | ⟨b, t, heq, hpb⟩
          · left
            rw [hR]
            exact h0
          · right
            have hbt : rest2 = b :: t := by
              rw [hR]
              exact heq
            have hbmem : b ∈ source := by
              rw [hsrc]
              have hbw : b ∈ w ++ rest2 := by
                rw [hbt]
                simp
              rw [hsplit] at hbw
              exact List.mem_append.2 (Or.inr hbw)
            rcases okChar_cases b (hall b hbmem) with hb | hb
            · exact ⟨b, t, hbt, hb⟩
            · rw [hpb] at hb
              simp at hb
        have hsrc2 : source = pre ++ w ++ rest2 := by
          rw [hsrc, ← hsplit]
          simp
        have hwlen : w.length ≤ rest'.length + 1 := by
          have := congrArg List.length hsplit
          simp at this
          omega
        have huw := scanUW_plain w hwplain pre rest2 (by rw [← hsrc2]; exact hall)
          hrest2head (f + 1) [] (by simp at hf; omega)
        have huw' : scan_unquoted_word source pre.length (f + 1) =
            some (.ok (pre.length + w.length, w)) := by
          rw [scan_unquoted_word, hsrc2]
          simpa using huw
        simp only [huw']
        have hr2len : rest2.length < f := by
          have := congrArg List.length hsplit
          simp at this
          have hw1 : 1 ≤ w.length := by
            rw [hwcons]
            simp
          simp at hf
          omega
        have hrec := ih (pre ++ w) rest2 (tokens ++ [mkWord w]) (by rw [hsrc2]) hr2len
        rw [show (pre ++ w).length = pre.length + w.length from by simp] at hrec
        rw [hrec]
        have hpw : parseLoop (c :: rest') [] = w :: parseLoop rest2 [] := by
          rw [← hsplit]
          have := parseLoop_word w (fun x hx => plain_not_ws x (hwplain x hx)) [] rest2
            (by rcases hrest2head with h0 | ⟨b, r2, hbt, hb⟩
                · left; exact h0
                · right; exact ⟨b, r2, hbt, isBlank_ws b hb⟩)
            (by rw [hwcons]; simp)
          simpa using this
        rw [hpw]
        simp

/-! ## Claim theorems -/

/-- Claim C1: the spec says that outside quotes a run of spaces or tabs
separates fields, so scanning the line `'a' b` (quote, a, quote, space, b)
should yield the two Words `a` and `b`.  The code does not reset
`previous_arm` on whitespace, so the unquoted word `b` after the space is
merged into the preceding quoted Word: the scan yields the single Word `ab`,
refuting the claim (code bug). -/
theorem c1_code_eval :
    scan_tokens [sq, 'a', sq, spaceC, 'b'] 10 =
      some (.ok [mkWord ['a', 'b'], eofToken]) := by decide

/-- Claim C2: the spec says `"hey there"'how are'` scans to exactly one Word
`hey therehow are`.  The code pushes a fresh token for a quoted segment even
when it directly follows another quoted segment (only quoted-then-unquoted
adjacency merges), so the scan yields the two Words `hey there` and
`how are`, refuting the claim (code bug; the repo's own test
`test_adjacent_double_quoted_single_quoted` expects one Word). -/
theorem c2_code_eval :
    scan_tokens [dq, 'h', 'e', 'y', spaceC, 't', 'h', 'e', 'r', 'e', dq, sq,
        'h', 'o', 'w', spaceC, 'a', 'r', 'e', sq] 30 =
      some (.ok [mkWord ['h', 'e', 'y', spaceC, 't', 'h', 'e', 'r', 'e'],
        mkWord ['h', 'o', 'w', spaceC, 'a', 'r', 'e'], eofToken]) := by decide

/-- Claim C3: the spec says that inside double quotes a backslash followed by
a character with no special meaning is preserved verbatim as both characters,
so `"a\xb"` should scan to the Word `a\xb`.  The code consumes the character
after the backslash and, in the default branch, pushes only the backslash,
silently dropping the consumed character: the scan yields `a\b`, refuting the
claim (code bug; the code's own comment cites the bash manual saying such
backslashes are left unmodified). -/
theorem c3_code_eval :
    scan_tokens [dq, 'a', bs, 'x', 'b', dq] 10 =
      some (.ok [mkWord ['a', bs, 'b'], eofToken]) := by decide

/-- Claim C4: the spec says every scan terminates in a single left-to-right
pass, e.g. on `a|b`.  On an unquoted metacharacter such as `|`,
`scan_unquoted_word` returns immediately with the cursor unchanged, and
`scan_tokens` resets `current` to that same position: the loop repeats the
same state forever (pushing empty Words).  In the fuel model: for every
amount of fuel the scan of `a|b` fails to finish, refuting the claim
(code bug). -/
theorem c4_diverges : ∀ fuel : Nat, scan_tokens ['a', '|', 'b'] fuel = none := by
  intro fuel
  match fuel with
  | 0 => rfl
  | 1 => decide
  | f + 2 =>
    have hstep : scan_tokens ['a', '|', 'b'] (f + 2) =
        scanLoop ['a', '|', 'b'] (f + 1) 1 none [mkWord ['a']] := rfl
    rw [hstep]
    exact scanLoop_pipe (f + 1) _

/-- Claim C5: the spec says scan is total and must index by character so that
non-ASCII input such as `é` is handled without crashing.  The code bounds its
loops by the byte length (`String::len`) while indexing with `chars().nth`,
so on the input `é` (one character, two bytes) it calls `nth(1).unwrap()` on
`None` and panics, refuting the claim (code bug). -/
theorem c5_code_eval : scan_tokens [eAcute] 10 = some .crash := by decide

/-- Claim C6 (counterexample): the claim says the argument vector the REPL
passes to dispatch equals the Scanner's Word texts.  The REPL actually uses
`LineParser::parse`, a plain ASCII-whitespace splitter with no quote
processing: on the line `'a b'` the Scanner yields the single Word `a b`
while `LineParser::parse` yields `'a` and `b'`. -/
theorem c6_counterexample :
    scanWords [sq, 'a', spaceC, 'b', sq] 10 = some [['a', spaceC, 'b']] ∧
    LineParser.parse [sq, 'a', spaceC, 'b', sq] ≠ [['a', spaceC, 'b']] := by decide

/-- Claim C6 (amended): the REPL's argument vector (`LineParser::parse`)
agrees with the Scanner's Word texts on lines whose characters are all
single-byte and either blanks (space/tab) or plain word characters (no
quotes, backslashes, scanner metacharacters, carriage returns or form
feeds). -/
theorem c6_amended (s : List Char) (h : ∀ c ∈ s, okChar c = true) :
    scanWords s (s.length + 1) = some (LineParser.parse s) := by
  have hmain := scanLoop_plain s h (s.length + 1) [] s [] (by simp) (by omega)
  rw [show (([] : List Char)).length = 0 from rfl] at hmain
  have h0 : scan_tokens s (s.length + 1) =
      some (.ok ([] ++ (parseLoop s []).map mkWord ++ [eofToken])) := by
    rw [scan_tokens]
    exact hmain
  simp only [scanWords, h0, List.nil_append]
  rw [wordTexts_words]
  rfl

/-- Witness for C6 (amended): the line `a b` instantiates the theorem. -/
theorem c6_amended_witness :
    (∀ c ∈ ['a', spaceC, 'b'], okChar c = true) ∧
    scanWords ['a', spaceC, 'b'] 4 = some (LineParser.parse ['a', spaceC, 'b']) :=
  ⟨by decide, c6_amended ['a', spaceC, 'b'] (by decide)⟩

/-- Claim C7: an opening single quote with no closing quote before
end-of-input fails with the unterminated-single-quote error; an opening
double quote with no closing quote fails with the unterminated-double-quote
error; a backslash with nothing after it in an unquoted segment fails with
the trailing-backslash error.  In each case the whole scan returns the
error (the `err` result carries no token list at all). -/
theorem c7_errors :
    (∀ (rest : List Char) (fuel : Nat), sq ∉ rest → 0 < fuel →
      scan_tokens (sq :: rest) fuel = some (.err msgUnterminatedSingle)) ∧
    (∀ (rest : List Char) (fuel : Nat), dq ∉ rest → 0 < fuel →
      scan_tokens (dq :: rest) fuel = some (.err msgUnterminatedDouble)) ∧
    (∀ (w : List Char) (fuel : Nat), (∀ c ∈ w, plainChar c = true) → w.length + 2 ≤ fuel →
      scan_tokens (w ++ [bs]) fuel = some (.err msgTrailingBackslash)) := by
  refine ⟨?_, ?_, ?_⟩
  · intro rest fuel hmem hf
    obtain ⟨f, rfl⟩ : ∃ f, fuel = f + 1 := ⟨fuel - 1, by omega⟩
    have hcond : (0 : Nat) < strByteLen (sq :: rest) := by
      simp only [strByteLen, show sq.utf8Size = 1 from by decide]
      omega
    have hf0 : findFrom ((sq :: rest).drop (0 + 1)) sq = none := by
      simpa using findFrom_eq_none sq rest hmem
    have hscan : scan_single_quoted_string (sq :: rest) 0 = .err msgUnterminatedSingle := by
      simp only [scan_single_quoted_string, hf0]
    rw [scan_tokens]
    simp only [scanLoop]
    rw [if_pos hcond]
    simp only [show ((sq :: rest).get? 0) = some sq from rfl]
    rw [if_neg (by decide : ¬(sq = spaceC ∨ sq = tabC)), if_true]
    simp only [hscan]
  · intro rest fuel hmem hf
    obtain ⟨f, rfl⟩ : ∃ f, fuel = f + 1 := ⟨fuel - 1, by omega⟩
    have hcond : (0 : Nat) < strByteLen (dq :: rest) := by
      simp only [strByteLen, show dq.utf8Size = 1 from by decide]
      omega
    have hdqn : scanDQLoop ((dq :: rest).drop (0 + 1)) 0 [] = none := by
      have hr : ((dq :: rest).drop (0 + 1)) = rest := by simp
      rw [hr]
      exact scanDQLoop_none rest.length rest (le_refl _) hmem 0 []
    have hscan : scan_double_quoted_string (dq :: rest) 0 = .err msgUnterminatedDouble := by
      simp only [scan_double_quoted_string, hdqn]
    rw [scan_tokens]
    simp only [scanLoop]
    rw [if_pos hcond]
    simp only [show ((dq :: rest).get? 0) = some dq from rfl]
    rw [if_neg (by decide : ¬(dq = spaceC ∨ dq = tabC)), if_neg (by decide : ¬(dq = sq)),
      if_true]
    simp only [hscan]
  · intro w fuel hw hf
    obtain ⟨f, rfl⟩ : ∃ f, fuel = f + 1 := ⟨fuel - 1, by omega⟩
    have huw : scanUWLoop (w ++ [bs]) (f + 1) 0 [] = some (.err msgTrailingBackslash) := by
      have := scanUW_trailing w hw [] (by simp) (f + 1) [] (by simp at hf ⊢; omega)
      simpa using this
    rw [scan_tokens]
    simp only [scanLoop]
    cases w with
    | nil =>
      rw [if_pos (by decide : (0 : Nat) < strByteLen (([] : List Char) ++ [bs]))]
      simp only [show (([] : List Char) ++ [bs]).get? 0 = some bs from rfl]
      rw [if_neg (by decide : ¬(bs = spaceC ∨ bs = tabC)), if_neg (by decide : ¬(bs = sq)),
        if_neg (by decide : ¬(bs = dq))]
      simp only [scan_unquoted_word, huw]
    | cons c w' =>
      have hplain := hw c (by simp)
      obtain ⟨hutf, hmeta, hsq, hdq, hbs, _, _⟩ := plainChar_spec c hplain
      have hcond : (0 : Nat) < strByteLen ((c :: w') ++ [bs]) := by
        have hr : (c :: w') ++ [bs] = c :: (w' ++ [bs]) := rfl
        rw [hr]
        simp only [strByteLen, hutf]
        omega
      rw [if_pos hcond]
      simp only [show ((c :: w') ++ [bs]).get? 0 = some c from rfl]
      have hnblank : ¬(c = spaceC ∨ c = tabC) := by
        obtain ⟨h1, h2, _⟩ := not_meta_spec c hmeta
        rintro (rfl | rfl)
        · exact h1 rfl
        · exact h2 rfl
      rw [if_neg hnblank, if_neg hsq, if_neg hdq]
      simp only [scan_unquoted_word, huw]

/-- Witness for C7: the inputs `'`, `"` and `a\` instantiate the three
parts. -/
theorem c7_errors_witness :
    scan_tokens [sq] 1 = some (.err msgUnterminatedSingle) ∧
    scan_tokens [dq] 1 = some (.err msgUnterminatedDouble) ∧
    scan_tokens ['a', bs] 4 = some (.err msgTrailingBackslash) :=
  ⟨c7_errors.1 [] 1 (by decide) (by decide),
   c7_errors.2.1 [] 1 (by decide) (by decide),
   c7_errors.2.2 ['a'] 4 (by decide) (by decide)⟩

/-- Claim C8 (counterexample): the claim says every character between single
quotes is carried into the Word literally; but on `'é'` the code panics
(`crash`): `end_at` is a character index used as a byte index, and byte 2 of
the two-byte `é` is not a character boundary, so the slice
`&source[1..2]` panics instead of producing the Word `é`. -/
theorem c8_counterexample :
    scan_tokens [sq, eAcute, sq] 5 = some .crash ∧
    scan_tokens [sq, eAcute, sq] 5 ≠ some (.ok [mkWord [eAcute], eofToken]) := by decide

/-- Claim C8 (amended): every SINGLE-BYTE character between the single
quotes — backslash included, with no special meaning — is carried into the
Word text literally: scanning `'<content>'` yields exactly the Word
`<content>` when `content` contains no quote and only single-byte
characters. -/
theorem c8_amended (content : List Char) (fuel : Nat) (h1 : sq ∉ content)
    (h2 : ∀ c ∈ content, c.utf8Size = 1) (h3 : 2 ≤ fuel) :
    scan_tokens (sq :: (content ++ [sq])) fuel =
      some (.ok [mkWord content, eofToken]) := by
  obtain ⟨f, rfl⟩ : ∃ f, fuel = f + 2 := ⟨fuel - 2, by omega⟩
  have hascii : ∀ c ∈ sq :: (content ++ [sq]), c.utf8Size = 1 := by
    intro c hc
    simp only [List.mem_cons, List.mem_append] at hc
    rcases hc with rfl | hc | hc
    · decide
    · exact h2 c hc
    · simp at hc
      subst hc
      decide
  have hlen : strByteLen (sq :: (content ++ [sq])) = content.length + 2 := by
    rw [strByteLen_eq_length _ hascii]
    simp
  have hscan := scan_single_ok content h1 h2
  rw [scan_tokens]
  simp only [scanLoop]
  rw [if_pos (by rw [hlen]; omega)]
  simp only [show ((sq :: (content ++ [sq])).get? 0) = some sq from rfl]
  rw [if_neg (by decide : ¬(sq = spaceC ∨ sq = tabC)), if_true]
  simp only [hscan]
  rw [if_neg (by rw [hlen]; omega)]
  simp

/-- Witness for C8 (amended): the content `a\nb` (with a literal backslash)
instantiates the theorem, giving the spec's single-quote literalness
example. -/
theorem c8_amended_witness :
    scan_tokens (sq :: (['a', bs, 'n', 'b'] ++ [sq])) 2 =
      some (.ok [mkWord ['a', bs, 'n', 'b'], eofToken]) :=
  c8_amended ['a', bs, 'n', 'b'] 2 (by decide) (by decide) (by decide)

/-- Claim C9: whenever a scan succeeds, the resulting token sequence is some
list of `String`-type (Word) tokens followed by exactly one `Eof` token as
the last element; and scanning the empty string yields only the `Eof`
token. -/
theorem c9_end_token :
    (∀ (s : List Char) (fuel : Nat) (ts : List Token),
      scan_tokens s fuel = some (.ok ts) →
      ∃ ws, ts = ws ++ [eofToken] ∧ ∀ t ∈ ws, t.type_ = TokenType.string) ∧
    scan_tokens [] 1 = some (.ok [eofToken]) := by
  constructor
  · intro s fuel ts h
    exact scanLoop_ok_shape s fuel 0 none [] ts (by simp) h
  · decide

/-- Witness for C9: the scan of `a` instantiates the universally quantified
part. -/
theorem c9_end_token_witness :
    scan_tokens ['a'] 3 = some (.ok [mkWord ['a'], eofToken]) ∧
    ∃ ws, [mkWord ['a'], eofToken] = ws ++ [eofToken] ∧
      ∀ t ∈ ws, t.type_ = TokenType.string :=
  ⟨by decide, c9_end_token.1 ['a'] 3 [mkWord ['a'], eofToken] (by decide)⟩

/-- Claim C10: an empty quoted string produces an empty-text Word token
rather than no token: both `''` and `""` scan to exactly one Word with empty
text followed by the `Eof` token. -/
theorem c10_empty_quotes :
    scan_tokens [sq, sq] 3 = some (.ok [mkWord [], eofToken]) ∧
    scan_tokens [dq, dq] 3 = some (.ok [mkWord [], eofToken]) := by decide

end Rushell
